import Mathlib

/-!
Verification of the streaming output controller of `llm-complete`
(`src/llm-complete.js`), as a shallow embedding in Lean.

Strings of the JavaScript program are modelled as `List Char`; file
contents (byte buffers) as `List Nat` with one entry per byte.  The
asynchronous parts (the `for await` token loop, the paced drain loop and
the cancellation flag set from the Ctrl-C listener) are modelled by an
explicit loop over the token list together with a parameter
`ka : Option Nat` giving the first cooperative-check index at which
`state.killed` reads true; checks are numbered in program order (one per
main-loop iteration, continuing through the drain-loop iterations), which
matches the single-threaded cooperative scheduling of the source.
-/

namespace LlmComplete

/-- One fragment of model output (a JavaScript string). -/
abbrev Token := List Char

/-- Sentence boundary characters of the source regex
`const boundaries = /[.?!â€¦:;\n]/;` (line 226).  The middle three
characters are the bytes of the source file read back as UTF-8: the file
holds the double-encoded ellipsis, so the class really contains the three
characters U+00E2, U+20AC, U+00A6 and not U+2026. -/
def isBoundaryChar (c : Char) : Bool :=
  c == '.' || c == '?' || c == '!' || c == 'â' || c == '€' || c == '¦' ||
  c == ':' || c == ';' || c == '\n'

/-- `token.match(boundaries)` is truthy iff the token contains a
character of the class (line 273). -/
def containsBoundary (t : Token) : Bool :=
  t.any isBoundaryChar

/-- The initial trim `input = input.replace(/[^\n](\n)$/,'')` of
`processStream` (line 233): the regex matches a non-newline character
followed by a final newline, and the whole two-character match is
replaced by the empty string. -/
def trimInput (input : List Char) : List Char :=
  match input.reverse with
  | '\n' :: c :: rest => if c = '\n' then input else rest.reverse
  | _ => input

/-- The duplicate-leading-space removal applied to the very first token
(lines 261-266): `token.startsWith(' ') && input.endsWith(' ')` strips
one leading character via `token.toString().slice(1)`. -/
def dedupSpace (input' : List Char) (t : Token) : Token :=
  if t.head? = some ' ' ∧ input'.getLast? = some ' ' then t.drop 1 else t

/-- The token list as it enters the buffer: the first-token check
`currentToken < 0` holds exactly on the first loop iteration, so only
the head of the stream can be adjusted. -/
def adjustTokens (input' : List Char) : List Token → List Token
  | [] => []
  | t :: ts => dedupSpace input' t :: ts

/-- Observable actions on the output sink and terminal during a run. -/
inductive Event where
  /-- `writeToken(input)` echoing the (trimmed) input (line 241). -/
  | echo (s : List Char)
  /-- `writeToken(buffer[...])` emitting one buffered token. -/
  | emitTok (t : Token)
  /-- the final `writeToken('\n')` of `proccessingStopped` (line 323). -/
  | newline
  /-- a call to `stopIndicating()`. -/
  | stopInd
  /-- the call to `restoreInput()` in `proccessingStopped`. -/
  | restore
  deriving DecidableEq, Repr

/-- The mutable locals of the `processStream` token loop (lines 250-254),
plus the trace of observable events so far. -/
structure LoopState where
  buffer : List Token
  currentToken : Int
  currentIndex : Nat
  currentBoundary : Int
  events : List Event
  deriving Repr

/-- Loop-local state before the first iteration:
`let buffer = []; let currentToken = -1; let currentIndex = 0;
let currentBoundary = -1;` (lines 251-254). -/
def initState : LoopState :=
  { buffer := [], currentToken := -1, currentIndex := 0,
    currentBoundary := -1, events := [] }

/-- One iteration of the `for await (let token of stream.tokens)` body
(lines 257-287), minus the cancellation check, which is handled by the
surrounding loop.  `d` is `bufferAhead`, `append`/`tty` are the
`append` flag and `process.stdout.isTTY`. -/
def step (input' : List Char) (d : Nat) (append tty : Bool)
    (s : LoopState) (token : Token) : LoopState :=
  -- Prevent double space between input and output (261-266)
  let token :=
    if s.currentToken < 0 ∧ token.head? = some ' ' ∧
        input'.getLast? = some ' '
    then token.drop 1 else token
  -- Buffer tokens (269-270)
  let buffer := s.buffer ++ [token]
  let currentToken := s.currentToken + 1
  -- Detect position of last sentence boundary (273-275)
  let currentBoundary :=
    if containsBoundary token then (buffer.length : Int)
    else s.currentBoundary
  -- Hide loading indicator before outputting to terminal (278-280)
  let events :=
    if currentToken = (d : Int) ∧ append = false ∧ tty = true
    then s.events ++ [Event.stopInd] else s.events
  -- Don't start outputting until buffer is full (283-286)
  if (d : Int) ≤ currentToken then
    { buffer := buffer, currentToken := currentToken,
      currentIndex := s.currentIndex + 1,
      currentBoundary := currentBoundary,
      events := events ++ [Event.emitTok (buffer.getD s.currentIndex [])] }
  else
    { buffer := buffer, currentToken := currentToken,
      currentIndex := s.currentIndex,
      currentBoundary := currentBoundary, events := events }

/-- `step` without the first-iteration token adjustment; used in proofs,
and equal to `step` on every state with `currentToken ≥ 0`. -/
def stepP (_input' : List Char) (d : Nat) (append tty : Bool)
    (s : LoopState) (token : Token) : LoopState :=
  let buffer := s.buffer ++ [token]
  let currentToken := s.currentToken + 1
  let currentBoundary :=
    if containsBoundary token then (buffer.length : Int)
    else s.currentBoundary
  let events :=
    if currentToken = (d : Int) ∧ append = false ∧ tty = true
    then s.events ++ [Event.stopInd] else s.events
  if (d : Int) ≤ currentToken then
    { buffer := buffer, currentToken := currentToken,
      currentIndex := s.currentIndex + 1,
      currentBoundary := currentBoundary,
      events := events ++ [Event.emitTok (buffer.getD s.currentIndex [])] }
  else
    { buffer := buffer, currentToken := currentToken,
      currentIndex := s.currentIndex,
      currentBoundary := currentBoundary, events := events }

/-- Whether the cooperatively checked flag `state.killed` reads true at
check number `i` (checks are numbered in program order). -/
def isKilled (ka : Option Nat) (i : Nat) : Bool :=
  match ka with
  | none => false
  | some k => decide (k ≤ i)

/-- The token loop with its cancellation check `if (state.killed) return;`
(line 258) at the top of every iteration.  Returns the final loop state
and whether the loop was aborted by the check. -/
def loopK (input' : List Char) (d : Nat) (append tty : Bool)
    (ka : Option Nat) : LoopState → Nat → List Token → LoopState × Bool
  | s, _, [] => (s, false)
  | s, i, t :: ts =>
    if isKilled ka i then (s, true)
    else loopK input' d append tty ka (step input' d append tty s t) (i + 1) ts

/-- JavaScript `Array.prototype.slice` with (possibly negative) integer
arguments. -/
def jsSlice (l : List α) (s e : Int) : List α :=
  let len : Int := l.length
  let s' : Nat := (if s < 0 then max (len + s) 0 else min s len).toNat
  let e' : Nat := (if e < 0 then max (len + e) 0 else min e len).toNat
  (l.drop s').take (e' - s')

/-- The loop `while (buffer.slice(-1)[0]?.match(/\n/)) buffer.pop();`
(lines 293-295): drop trailing tokens that contain a newline. -/
def stripTrailingNewlineTokens (l : List Token) : List Token :=
  (l.reverse.dropWhile (fun t => t.any (· == '\n'))).reverse

/-- The tail-trim block after the token loop (lines 289-296): with the
final loop state, compute the list the drain loop will walk.  The outer
`if (currentBoundary)` and the inner conditional read JavaScript
truthiness: any non-zero number passes. -/
def drainList (s : LoopState) : List Token :=
  if s.currentBoundary ≠ 0 then
    let boundary : Int :=
      if s.currentBoundary ≠ 0 then s.currentBoundary
      else (s.buffer.length : Int) - 1
    stripTrailingNewlineTokens
      (jsSlice s.buffer (s.currentIndex : Int) boundary)
  else s.buffer

/-- The paced drain loop (lines 299-307): emits `dl` one element at a
time, checking `state.killed` before each write; `n` is the number of
cooperative checks already performed by the main loop. -/
def drainEmits (ka : Option Nat) (n : Nat) (dl : List Token) : List Token :=
  match ka with
  | none => dl
  | some k => dl.take (k - n)

/-- The observable event trace of one `processStream(input)` call
(lines 229-313) followed by `proccessingStopped()` (lines 322-327),
for a run that produces `tokens` and whose kill flag first reads true at
cooperative check `ka` (if ever).  In append mode the input is not
echoed (the file normalization of `createWriteStream` is modelled
separately by `normalizeFile`). -/
def processStreamEvents (input : List Char) (d : Nat) (append tty : Bool)
    (tokens : List Token) (ka : Option Nat) : List Event :=
  let input' := trimInput input
  let echoEvents : List Event := if append then [] else [Event.echo input']
  let r := loopK input' d append tty ka initState 0 tokens
  let finalEvents : List Event := [Event.newline, Event.stopInd, Event.restore]
  if r.2 then echoEvents ++ r.1.events ++ finalEvents
  else
    echoEvents ++ r.1.events ++
      (drainEmits ka tokens.length (drainList r.1)).map Event.emitTok ++
      finalEvents

/-- The buffered tokens written to the sink, in order. -/
def tokenEmits (evs : List Event) : List Token :=
  evs.filterMap fun e =>
    match e with
    | Event.emitTok t => some t
    | _ => none

/-- All text written to the sink, concatenated. -/
def sinkText (evs : List Event) : List Char :=
  (evs.map fun e =>
    match e with
    | Event.echo s => s
    | Event.emitTok t => t
    | Event.newline => ['\n']
    | _ => []).flatten

/-- The buffered tokens written during the live phase only (the writes
of the `for await` loop, before the drain). -/
def liveWrites (input : List Char) (d : Nat) (append tty : Bool)
    (tokens : List Token) (ka : Option Nat) : List Token :=
  tokenEmits (loopK (trimInput input) d append tty ka initState 0 tokens).1.events

/-- True iff no buffered token is emitted before some `stopIndicating`
call in the trace. -/
def stopBeforeFirstEmit : List Event → Bool
  | [] => true
  | Event.stopInd :: _ => true
  | Event.emitTok _ :: _ => false
  | _ :: rest => stopBeforeFirstEmit rest

/-- The one-time trailing-newline normalization of `createWriteStream`
(lines 171-186), acting on the file content as a byte list: compute
`eof = size - 2`; when `eof > 1`, read the last two bytes and truncate
to `eof + 1` bytes when they are a non-newline followed by a newline. -/
def normalizeFile (file : List Nat) : List Nat :=
  let size := file.length
  let eof : Int := (size : Int) - 2
  if 1 < eof then
    let b0 := file.getD (size - 2) 0
    let b1 := file.getD (size - 1) 0
    if b0 ≠ 10 ∧ b1 = 10 then file.take (size - 1) else file
  else file

/-- The two states the readline `_ttyWrite` handler can hold: the saved
original handler `tty` (line 120) or the no-op installed by
`blockInput`. -/
inductive TtyHandler where
  | original
  | noop
  deriving DecidableEq, Repr

/-- Terminal state touched by the input guard: the installed `_ttyWrite`
handler and the cursor visibility toggled via the escape sequences
written to stderr. -/
structure GuardState where
  ttyWrite : TtyHandler
  cursorVisible : Bool
  deriving DecidableEq, Repr

/-- `blockInput()` (lines 121-124): install the no-op handler and hide
the cursor. -/
def blockInput (_s : GuardState) : GuardState :=
  { ttyWrite := TtyHandler.noop, cursorVisible := false }

/-- `restoreInput()` (lines 127-130): reattach the saved handler and
show the cursor. -/
def restoreInput (_s : GuardState) : GuardState :=
  { ttyWrite := TtyHandler.original, cursorVisible := true }

/-- The global `state` record (lines 8-13), without the timer handle. -/
structure AppState where
  busy : Bool
  killed : Bool
  flashOn : Bool
  deriving DecidableEq, Repr

/-- Every mutation of the global `state` record present in the source. -/
inductive Action where
  /-- `state.busy = true` at the top of `processStream` (line 230). -/
  | processStreamStart
  /-- the Ctrl-C data listener (lines 133-142): sets `state.killed`
  only while `state.busy` holds. -/
  | ctrlC
  /-- one tick of the `startIndicating` interval (lines 153-161). -/
  | flashTick
  /-- `stopIndicating()` (lines 165-168). -/
  | stopIndicate
  deriving DecidableEq, Repr

/-- Effect of one mutation on the global state. -/
def applyAction (s : AppState) : Action → AppState
  | Action.processStreamStart => { s with busy := true }
  | Action.ctrlC => if s.busy then { s with killed := true } else s
  | Action.flashTick => { s with flashOn := !s.flashOn }
  | Action.stopIndicate => { s with flashOn := false }

/-- Run a sequence of mutations from the initial global state
`{ busy: false, killed: false, flashOn: false }`. -/
def runActions (acts : List Action) : AppState :=
  acts.foldl applyAction { busy := false, killed := false, flashOn := false }

/-- The two branches of `shutdown()` (lines 208-216). -/
inductive DisposalMode where
  /-- `setTimeout(dispose, 800)` -/
  | deferred
  /-- `dispose()` right away -/
  | immediate
  deriving DecidableEq, Repr

/-- Which branch `shutdown()` takes in a given global state. -/
def shutdownMode (s : AppState) : DisposalMode :=
  if s.busy then DisposalMode.deferred else DisposalMode.immediate

/-! ### Supporting lemmas -/

lemma take_succ_getD {α : Type} (l : List α) (i : Nat) (x : α)
    (h : i < l.length) : l.take (i + 1) = l.take i ++ [l.getD i x] := by
  induction l generalizing i with
  | nil => simp at h
  | cons a as ih =>
    cases i with
    | zero => simp
    | succ j =>
      simp only [List.take_succ_cons, List.getD, List.get?]
      have := ih j (by simpa using h)
      simp [List.getD] at this
      simp [this]

lemma stepP_currentToken (input' : List Char) (d : Nat) (append tty : Bool)
    (s : LoopState) (tok : Token) :
    (stepP input' d append tty s tok).currentToken = s.currentToken + 1 := by
  dsimp only [stepP]
  split_ifs <;> rfl

lemma step_eq_stepP (input' : List Char) (d : Nat) (append tty : Bool)
    (s : LoopState) (tok : Token) (h : 0 ≤ s.currentToken) :
    step input' d append tty s tok = stepP input' d append tty s tok := by
  unfold step stepP
  have hc : ¬ (s.currentToken < 0 ∧ tok.head? = some ' ' ∧
      input'.getLast? = some ' ') := by
    rintro ⟨h1, -⟩; omega
  simp only [if_neg hc]

lemma foldl_step_eq_foldl_stepP (input' : List Char) (d : Nat)
    (append tty : Bool) :
    ∀ (ts : List Token) (s : LoopState), 0 ≤ s.currentToken →
      ts.foldl (step input' d append tty) s
        = ts.foldl (stepP input' d append tty) s := by
  intro ts
  induction ts with
  | nil => intro s _; rfl
  | cons t ts ih =>
    intro s hs
    simp only [List.foldl_cons]
    rw [step_eq_stepP input' d append tty s t hs]
    exact ih _ (by rw [stepP_currentToken]; omega)

lemma step_init (input' : List Char) (d : Nat) (append tty : Bool)
    (tok : Token) :
    step input' d append tty initState tok
      = stepP input' d append tty initState (dedupSpace input' tok) := by
  unfold step stepP dedupSpace
  have hneg : (initState.currentToken < 0) := by
    simp [initState]
  by_cases hc : tok.head? = some ' ' ∧ input'.getLast? = some ' '
  · have : (initState.currentToken < 0 ∧ tok.head? = some ' ' ∧
        input'.getLast? = some ' ') := ⟨hneg, hc⟩
    simp only [if_pos this, if_pos hc]
  · have : ¬ (initState.currentToken < 0 ∧ tok.head? = some ' ' ∧
        input'.getLast? = some ' ') := by
      rintro ⟨-, h2⟩; exact hc h2
    simp only [if_neg this, if_neg hc]

lemma foldl_step_init (input' : List Char) (d : Nat) (append tty : Bool)
    (ts : List Token) :
    ts.foldl (step input' d append tty) initState
      = (adjustTokens input' ts).foldl (stepP input' d append tty) initState := by
  cases ts with
  | nil => rfl
  | cons t ts =>
    simp only [adjustTokens, List.foldl_cons]
    rw [step_init]
    exact foldl_step_eq_foldl_stepP input' d append tty ts _
      (by rw [stepP_currentToken]; simp [initState])

lemma adjustTokens_length (input' : List Char) (ts : List Token) :
    (adjustTokens input' ts).length = ts.length := by
  cases ts <;> simp [adjustTokens]

lemma foldl_stepP_core (input' : List Char) (d : Nat) (append tty : Bool)
    (ts : List Token) :
    (ts.foldl (stepP input' d append tty) initState).buffer = ts ∧
    (ts.foldl (stepP input' d append tty) initState).currentToken
      = (ts.length : Int) - 1 ∧
    (ts.foldl (stepP input' d append tty) initState).currentIndex
      = ts.length - d := by
  induction ts using List.reverseRecOn with
  | nil => refine ⟨rfl, by simp [initState], by simp [initState]⟩
  | append_singleton ts a ih =>
    obtain ⟨hb, hct, hci⟩ := ih
    rw [List.foldl_append]
    set s := ts.foldl (stepP input' d append tty) initState with hs
    simp only [List.foldl_cons, List.foldl_nil]
    dsimp only [stepP]
    split_ifs <;>
      refine ⟨by simp [hb], ?_, ?_⟩ <;>
        simp only [List.length_append, List.length_singleton, hct, hci] <;>
          omega

lemma foldl_stepP_events (input' : List Char) (d : Nat) (append tty : Bool)
    (ts : List Token) :
    (ts.foldl (stepP input' d append tty) initState).events
      = (if d < ts.length ∧ append = false ∧ tty = true
         then [Event.stopInd] else [])
        ++ (ts.take (ts.length - d)).map Event.emitTok := by
  induction ts using List.reverseRecOn with
  | nil => simp [initState]
  | append_singleton ts a ih =>
    obtain ⟨hb, hct, hci⟩ := foldl_stepP_core input' d append tty ts
    rw [List.foldl_append]
    set s := ts.foldl (stepP input' d append tty) initState with hs
    simp only [List.foldl_cons, List.foldl_nil]
    dsimp only [stepP]
    have hsplit : d ≤ ts.length →
        (ts ++ [a]).take ((ts ++ [a]).length - d)
          = (ts ++ [a]).take (ts.length - d)
            ++ [(ts ++ [a]).getD (ts.length - d) []] := by
      intro hdn
      have h1 : (ts ++ [a]).length - d = (ts.length - d) + 1 := by
        simp only [List.length_append, List.length_singleton]; omega
      rw [h1]
      exact take_succ_getD _ _ _ (by
        simp only [List.length_append, List.length_singleton]; omega)
    by_cases hd : (d : Int) ≤ s.currentToken + 1
    · -- the emitting branch: `d ≤ ts.length`
      have hdn : d ≤ ts.length := by rw [hct] at hd; omega
      rw [if_pos hd]
      by_cases hstop : s.currentToken + 1 = (d : Int) ∧ append = false ∧
          tty = true
      · -- this is the iteration where `stopIndicating()` runs
        have hlen : ts.length = d := by
          obtain ⟨h1, -⟩ := hstop; rw [hct] at h1; omega
        rw [hsplit hdn]
        have h0 : ts.length - d = 0 := by omega
        have hno : ¬ (d < ts.length ∧ append = false ∧ tty = true) := by
          rintro ⟨h1, -⟩; omega
        have hyes : (d < ts.length + 1 ∧ append = false ∧ tty = true) :=
          ⟨by omega, hstop.2⟩
        simp [if_pos hstop, if_pos hyes, ih, hno, h0, hb, hci]
      · -- indicator already stopped on an earlier iteration (or non-tty)
        rw [if_neg hstop, hsplit hdn]
        have htake : (ts ++ [a]).take (ts.length - d)
            = ts.take (ts.length - d) :=
          List.take_append_of_le_length (by omega)
        by_cases hflags : append = false ∧ tty = true
        · have hne : ts.length ≠ d := by
            intro h
            exact hstop ⟨by rw [hct, h]; ring, hflags⟩
          have h1 : (d < ts.length ∧ append = false ∧ tty = true) :=
            ⟨by omega, hflags⟩
          have h2 : (d < ts.length + 1 ∧ append = false ∧ tty = true) :=
            ⟨by omega, hflags⟩
          simp [if_pos h1, if_pos h2, ih, htake, hb, hci]
        · have h1 : ¬ (d < ts.length ∧ append = false ∧ tty = true) := by
            rintro ⟨-, hf⟩; exact hflags hf
          have h2 : ¬ (d < ts.length + 1 ∧ append = false ∧ tty = true) := by
            rintro ⟨-, hf⟩; exact hflags hf
          simp [if_neg h1, if_neg h2, ih, htake, hb, hci]
    · -- still filling the buffer: no event this iteration
      have hdn : ts.length < d := by rw [hct] at hd; omega
      have hstop : ¬ (s.currentToken + 1 = (d : Int) ∧ append = false ∧
          tty = true) := by
        rintro ⟨h1, -⟩; rw [hct] at h1; omega
      rw [if_neg hd]
      have h1 : ¬ (d < ts.length ∧ append = false ∧ tty = true) := by
        rintro ⟨h1, -⟩; omega
      have h2 : ¬ (d < ts.length + 1 ∧ append = false ∧ tty = true) := by
        rintro ⟨h2, -⟩; omega
      have h3 : ts.length - d = 0 := by omega
      have h4 : ts.length + 1 - d = 0 := by omega
      simp [if_neg hstop, ih, h1, h2, h3, h4]

lemma foldl_stepP_boundary (input' : List Char) (d : Nat) (append tty : Bool)
    (ts : List Token) (h : ∀ x ∈ ts, containsBoundary x = false) :
    (ts.foldl (stepP input' d append tty) initState).currentBoundary = -1 := by
  induction ts using List.reverseRecOn with
  | nil => simp [initState]
  | append_singleton ts a ih =>
    rw [List.foldl_append]
    have ha : containsBoundary a = false := h a (by simp)
    have ihv := ih (fun x hx => h x (by simp [hx]))
    simp only [List.foldl_cons, List.foldl_nil]
    dsimp only [stepP]
    rw [ha]
    split_ifs <;> simp_all

lemma loopK_none (input' : List Char) (d : Nat) (append tty : Bool) :
    ∀ (ts : List Token) (i : Nat) (s : LoopState),
      loopK input' d append tty none s i ts
        = (ts.foldl (step input' d append tty) s, false) := by
  intro ts
  induction ts with
  | nil => intro i s; rfl
  | cons t ts ih =>
    intro i s
    simp only [loopK, isKilled, Bool.false_eq_true, if_neg, List.foldl_cons]
    exact ih (i + 1) _

lemma loopK_some (input' : List Char) (d : Nat) (append tty : Bool)
    (k : Nat) :
    ∀ (ts : List Token) (i : Nat) (s : LoopState),
      loopK input' d append tty (some k) s i ts
        = ((ts.take (k - i)).foldl (step input' d append tty) s,
           decide (k - i < ts.length)) := by
  intro ts
  induction ts with
  | nil => intro i s; simp [loopK]
  | cons t ts ih =>
    intro i s
    by_cases hk : k ≤ i
    · have h0 : k - i = 0 := by omega
      simp [loopK, isKilled, hk, h0]
    · have h1 : k - i = (k - (i + 1)) + 1 := by omega
      simp only [loopK, isKilled, decide_eq_true_eq, if_neg hk, ih (i + 1)]
      rw [h1]
      simp only [List.take_succ_cons, List.foldl_cons, List.length_cons]
      congr 1
      exact decide_eq_decide.mpr (by omega)

/-- Shorthand for the loop state reached from a (pre-adjusted) token
list, with no cancellation. -/
def finalState (input' : List Char) (d : Nat) (append tty : Bool)
    (ts : List Token) : LoopState :=
  ts.foldl (stepP input' d append tty) initState

lemma processStreamEvents_none (input : List Char) (d : Nat)
    (append tty : Bool) (ts : List Token) :
    processStreamEvents input d append tty ts none
      = (if append then [] else [Event.echo (trimInput input)])
        ++ (finalState (trimInput input) d append tty
              (adjustTokens (trimInput input) ts)).events
        ++ (drainList (finalState (trimInput input) d append tty
              (adjustTokens (trimInput input) ts))).map Event.emitTok
        ++ [Event.newline, Event.stopInd, Event.restore] := by
  unfold processStreamEvents finalState
  dsimp only
  rw [loopK_none, foldl_step_init]
  simp [drainEmits]

lemma tokenEmits_append (a b : List Event) :
    tokenEmits (a ++ b) = tokenEmits a ++ tokenEmits b := by
  unfold tokenEmits
  exact List.filterMap_append a b _

lemma tokenEmits_map_emit (l : List Token) :
    tokenEmits (l.map Event.emitTok) = l := by
  induction l with
  | nil => rfl
  | cons t ts ih => simpa [tokenEmits, List.filterMap_cons] using ih

lemma tokenEmits_stopPart (c : Prop) [Decidable c] :
    tokenEmits (if c then [Event.stopInd] else []) = [] := by
  split_ifs <;> rfl

lemma no_boundary_no_newline (t : Token)
    (h : containsBoundary t = false) : t.any (· == '\n') = false := by
  cases hv : t.any (· == '\n') with
  | false => rfl
  | true =>
    exfalso
    obtain ⟨c, hc, hcn⟩ := List.any_eq_true.mp hv
    have hcn' : c = '\n' := by simpa using hcn
    have : containsBoundary t = true := by
      refine List.any_eq_true.mpr ⟨c, hc, ?_⟩
      simp [isBoundaryChar, hcn']
    rw [this] at h; cases h

lemma containsBoundary_drop_one (t : Token)
    (h : containsBoundary t = false) :
    containsBoundary (t.drop 1) = false := by
  cases t with
  | nil => simpa using h
  | cons c cs =>
    unfold containsBoundary at h ⊢
    simp only [List.any_cons, Bool.or_eq_false_iff] at h
    simpa using h.2

lemma adjustTokens_no_boundary (input' : List Char) (ts : List Token)
    (h : ∀ t ∈ ts, containsBoundary t = false) :
    ∀ t ∈ adjustTokens input' ts, containsBoundary t = false := by
  cases ts with
  | nil => intro t ht; simp [adjustTokens] at ht
  | cons x xs =>
    intro t ht
    simp only [adjustTokens, List.mem_cons] at ht
    rcases ht with h1 | h2
    · subst h1
      unfold dedupSpace
      split_ifs
      · exact containsBoundary_drop_one x (h x (by simp))
      · exact h x (by simp)
    · exact h t (by simp [h2])

lemma strip_no_newline (l : List Token)
    (h : ∀ t ∈ l, t.any (· == '\n') = false) :
    stripTrailingNewlineTokens l = l := by
  unfold stripTrailingNewlineTokens
  have : l.reverse.dropWhile (fun t => t.any (· == '\n')) = l.reverse := by
    cases hrev : l.reverse with
    | nil => rfl
    | cons x xs =>
      have hx : x ∈ l := by
        rw [← List.mem_reverse, hrev]; simp
      rw [List.dropWhile_cons, h x hx]
      simp
  rw [this, List.reverse_reverse]

lemma jsSlice_neg_one {α : Type} (l : List α) (c : Nat) (hc : c ≤ l.length) :
    jsSlice l (c : Int) (-1) = (l.drop c).take (l.length - 1 - c) := by
  unfold jsSlice
  dsimp only
  have h1 : ¬ ((c : Int) < 0) := by omega
  have h2 : (-1 : Int) < 0 := by omega
  rw [if_neg h1, if_pos h2]
  have h3 : ((c : Int) ⊓ (l.length : Int)).toNat = c := by omega
  have h4 : (((l.length : Int) + -1) ⊔ 0).toNat = l.length - 1 := by omega
  rw [h3, h4]

lemma take_chunk {α : Type} (l : List α) (c e : Nat) (hc : c ≤ e) :
    l.take c ++ (l.drop c).take (e - c) = l.take e := by
  conv_rhs => rw [show e = c + (e - c) from by omega]
  rw [List.take_add]

/-! ### Claim theorems -/

/-- C3 (code evaluation): the boundary detector of the source does not
classify the horizontal ellipsis U+2026 as a boundary, because the
regex literal holds the double-encoded bytes; instead the three mojibake
characters U+00E2, U+20AC, U+00A6 each count as a boundary. -/
theorem c3_mojibake_boundary_class :
    containsBoundary ['…'] = false ∧ containsBoundary ['â'] = true ∧
    containsBoundary ['€'] = true ∧ containsBoundary ['¦'] = true := by
  decide

/-- C5 counterexample: a two-byte file ending in exactly one newline
(preceded by a non-newline) is left unchanged by the append-mode
normalization, not made one byte shorter, because of the `eof > 1`
size guard. -/
theorem c5_counterexample :
    normalizeFile [97, 10] = [97, 10] ∧
    (normalizeFile [97, 10]).length ≠ 1 := by
  decide

/-- C5 amended: for files of at least four bytes ending in a non-newline
byte followed by exactly one newline byte, normalization removes exactly
the final byte; a file ending in two newline bytes is always left
unchanged. -/
theorem c5_amended :
    (∀ (pre : List Nat) (c : Nat), 2 ≤ pre.length → c ≠ 10 →
        normalizeFile (pre ++ [c, 10]) = pre ++ [c]) ∧
    (∀ (pre : List Nat), normalizeFile (pre ++ [10, 10]) = pre ++ [10, 10]) := by
  constructor
  · intro pre c hlen hc
    unfold normalizeFile
    dsimp only
    have hl : (pre ++ [c, 10]).length = pre.length + 2 := by simp
    have h1 : (1 : Int) < ((pre ++ [c, 10]).length : Int) - 2 := by
      rw [hl]; push_cast; omega
    rw [if_pos h1]
    have hb0 : (pre ++ [c, 10]).getD ((pre ++ [c, 10]).length - 2) 0 = c := by
      rw [hl]
      have : pre.length + 2 - 2 = pre.length := by omega
      rw [this, List.getD_append_right _ _ _ _ (le_refl _)]
      simp
    have hb1 : (pre ++ [c, 10]).getD ((pre ++ [c, 10]).length - 1) 0 = 10 := by
      rw [hl]
      have : pre.length + 2 - 1 = pre.length + 1 := by omega
      rw [this, List.getD_append_right _ _ _ _ (by omega)]
      simp
    rw [hb0, hb1]
    rw [if_pos ⟨hc, rfl⟩]
    rw [hl]
    have : pre.length + 2 - 1 = pre.length + 1 := by omega
    rw [this, List.take_append_eq_append_take]
    have h2 : pre.length + 1 - pre.length = 1 := by omega
    simp [h2]
  · intro pre
    unfold normalizeFile
    dsimp only
    by_cases h1 : (1 : Int) < ((pre ++ [10, 10]).length : Int) - 2
    · rw [if_pos h1]
      have hl : (pre ++ [10, 10]).length = pre.length + 2 := by simp
      have hb0 : (pre ++ [10, 10]).getD ((pre ++ [10, 10]).length - 2) 0 = 10 := by
        rw [hl]
        have : pre.length + 2 - 2 = pre.length := by omega
        rw [this, List.getD_append_right _ _ _ _ (le_refl _)]
        simp
      rw [hb0]
      have : ¬ ((10 : Nat) ≠ 10 ∧
          (pre ++ [10, 10]).getD ((pre ++ [10, 10]).length - 1) 0 = 10) := by
        rintro ⟨hne, -⟩; exact hne rfl
      rw [if_neg this]
    · rw [if_neg h1]

/-- C5 witness: the amended statement applied at the concrete files
`[97, 98, 99, 10]` (four bytes, single trailing newline) and `[10, 10]`
(double newline). -/
theorem c5_amended_witness :
    normalizeFile [97, 98, 99, 10] = [97, 98, 99] ∧
    normalizeFile [10, 10] = [10, 10] :=
  ⟨c5_amended.1 [97, 98] 99 (by decide) (by decide), c5_amended.2 []⟩

/-- C8: `restoreInput` is idempotent on the terminal state it touches:
it always installs the saved handler and shows the cursor, so a second
invocation changes nothing. -/
theorem c8_restore_idempotent (s : GuardState) :
    restoreInput (restoreInput s) = restoreInput s := rfl

/-- C10: `state.busy` is set by `processStream` and no mutation in the
source ever resets it, so after any action sequence containing the start
of `processStream` the state is busy and `shutdown()` always takes the
deferred-disposal branch (`setTimeout(dispose, 800)`). -/
theorem c10_busy_never_reset (acts : List Action)
    (h : Action.processStreamStart ∈ acts) :
    (runActions acts).busy = true ∧
    shutdownMode (runActions acts) = DisposalMode.deferred := by
  have main : ∀ (l : List Action) (s : AppState),
      (Action.processStreamStart ∈ l ∨ s.busy = true) →
      (l.foldl applyAction s).busy = true := by
    intro l
    induction l with
    | nil =>
      intro s hs
      rcases hs with h0 | h0
      · simp at h0
      · simpa using h0
    | cons a l ih =>
      intro s hs
      simp only [List.foldl_cons]
      apply ih
      rcases hs with h0 | h0
      · rcases List.mem_cons.mp h0 with h1 | h2
        · right
          rw [← h1]
          simp [applyAction]
        · left; exact h2
      · right
        cases a <;> simp [applyAction, h0]
  have hb : (runActions acts).busy = true := main acts _ (Or.inl h)
  refine ⟨hb, ?_⟩
  unfold shutdownMode
  rw [if_pos hb]

/-- C10 witness: the theorem applied to the one-action sequence that
just starts `processStream`. -/
theorem c10_busy_never_reset_witness :
    (runActions [Action.processStreamStart]).busy = true ∧
    shutdownMode (runActions [Action.processStreamStart])
      = DisposalMode.deferred :=
  c10_busy_never_reset [Action.processStreamStart] (by decide)

/-- C1 counterexample: a boundary-free stream of three tokens at
lookahead depth 2 loses its final token: `currentBoundary` stays at the
truthy sentinel `-1`, so the trim block runs and `slice(currentIndex, -1)`
drops the last buffered token. -/
theorem c1_counterexample :
    (['c'] : Token) ∈ ([['a'], ['b'], ['c']] : List Token) ∧
    (['c'] : Token) ∉
      tokenEmits (processStreamEvents [] 2 false false
        [['a'], ['b'], ['c']] none) := by
  decide

/-- C1 amended: for a positive lookahead depth and a boundary-free token
stream with no cancellation, the run emits every produced token except
the last one, in order (the drain trims exactly the final token). -/
theorem c1_amended (input : List Char) (d : Nat) (append tty : Bool)
    (ts : List Token) (hd : 1 ≤ d)
    (hb : ∀ t ∈ ts, containsBoundary t = false) :
    tokenEmits (processStreamEvents input d append tty ts none)
      = (adjustTokens (trimInput input) ts).dropLast := by
  have hb' := adjustTokens_no_boundary (trimInput input) ts hb
  set input' := trimInput input with hin
  set ts' := adjustTokens input' ts with hts
  obtain ⟨hbuf, hct, hci⟩ := foldl_stepP_core input' d append tty ts'
  have hcb := foldl_stepP_boundary input' d append tty ts' hb'
  have hev := foldl_stepP_events input' d append tty ts'
  rw [processStreamEvents_none]
  unfold finalState at *
  set F := ts'.foldl (stepP input' d append tty) initState with hF
  have hdl : drainList F = stripTrailingNewlineTokens
      (jsSlice ts' ((ts'.length - d : Nat) : Int) (-1)) := by
    unfold drainList
    dsimp only
    rw [hcb, hbuf, hci]
    norm_num
  rw [hev, hdl, jsSlice_neg_one ts' _ (by omega)]
  rw [strip_no_newline _ (fun t ht => no_boundary_no_newline t
    (hb' t (List.drop_subset _ _ (List.take_subset _ _ ht))))]
  simp only [tokenEmits_append, tokenEmits_stopPart, tokenEmits_map_emit]
  have hecho : tokenEmits (if append then [] else [Event.echo input']) = [] := by
    cases append <;> rfl
  have hfin : tokenEmits [Event.newline, Event.stopInd, Event.restore] = [] := rfl
  rw [hecho, hfin]
  simp only [List.nil_append, List.append_nil]
  rw [take_chunk ts' (ts'.length - d) (ts'.length - 1) (by omega)]
  rw [← List.dropLast_eq_take]

/-- C1 amended witness: at depth 2 on the boundary-free stream
`["a", "b", "c"]` exactly the first two tokens are emitted. -/
theorem c1_amended_witness :
    tokenEmits (processStreamEvents [] 2 false false
      [['a'], ['b'], ['c']] none) = [['a'], ['b']] := by
  have h := c1_amended [] 2 false false [['a'], ['b'], ['c']]
    (by omega) (by decide)
  simpa using h

/-- The end-to-end scenario of the spec: input `"This is a story\n"`,
lookahead depth 3, token stream `["about", " something", "."]`, terminal
sink, no cancellation. -/
def storyRun : List Event :=
  processStreamEvents (("This is a story\n").data) 3 false true
    [(("about").data), ((" something").data), ((".").data)] none

/-- C2 counterexample: the total sink text of the scenario is not
`"This is a story about something.\n"`. -/
theorem c2_counterexample :
    sinkText storyRun ≠ (("This is a story about something.\n").data) := by
  decide

/-- C2 amended: in the scenario the detector does mark a boundary and
the drain keeps and emits all three tokens, but the total sink text is
`"This is a storabout something.\n"`: the initial trim also removes the
final `y` of the input, and the tokens themselves supply no space after
`story`. -/
theorem c2_amended :
    sinkText storyRun = (("This is a storabout something.\n").data) ∧
    tokenEmits storyRun
      = [(("about").data), ((" something").data), ((".").data)] := by
  decide

/-- C4 counterexample: at lookahead depth 1, after the running count of
pushed tokens reaches exactly 1 (= the depth) nothing has been written,
contradicting the claim; the first buffered token is only written once
the count reaches 2. -/
theorem c4_counterexample :
    liveWrites [] 1 false false [['a']] none ≠ [['a']] ∧
    liveWrites [] 1 false false [['a'], ['b']] none = [['a']] := by
  decide

/-- C4 amended: during the live phase nothing is written while at most
`d` tokens have been pushed, and after `n` pushed tokens exactly the
first `n - d` buffered tokens have been written, i.e. the first write
happens when the count reaches `d + 1`. -/
theorem c4_amended (input : List Char) (d : Nat) (append tty : Bool)
    (ts : List Token) :
    liveWrites input d append tty ts none
      = (adjustTokens (trimInput input) ts).take (ts.length - d) := by
  unfold liveWrites
  rw [loopK_none, foldl_step_init]
  rw [foldl_stepP_events]
  rw [tokenEmits_append, tokenEmits_stopPart, tokenEmits_map_emit]
  rw [adjustTokens_length]
  simp

/-- C6 counterexample: in a terminal run at depth 2 whose stream ends
after a single token, that token is emitted during the paced drain
before any `stopIndicating` call: the in-loop stop only fires when
`currentToken == bufferAhead`, which is never reached. -/
theorem c6_counterexample :
    stopBeforeFirstEmit (processStreamEvents [] 2 false true
      [['h', 'i', '.']] none) = false := by
  decide

/-- C6 amended: in non-cancelled interactive-terminal runs whose stream
is strictly longer than the lookahead depth, the progress indicator is
stopped before the first buffered token is written. -/
theorem c6_amended (input : List Char) (d : Nat) (ts : List Token)
    (h : d < ts.length) :
    stopBeforeFirstEmit (processStreamEvents input d false true ts none)
      = true := by
  rw [processStreamEvents_none]
  unfold finalState
  rw [foldl_stepP_events]
  have hc : (d < (adjustTokens (trimInput input) ts).length ∧
      (false : Bool) = false ∧ (true : Bool) = true) := by
    rw [adjustTokens_length]
    exact ⟨h, rfl, rfl⟩
  rw [if_pos hc]
  simp only [Bool.false_eq_true, if_neg, List.cons_append, List.append_assoc,
    List.nil_append]
  rfl

/-- C6 amended witness: depth 1, two-token stream. -/
theorem c6_amended_witness :
    stopBeforeFirstEmit (processStreamEvents [] 1 false true
      [['h'], ['i']] none) = true :=
  c6_amended [] 1 [['h'], ['i']] (by decide)

/-- C7: if the cancellation flag is observed while still in the fill
phase (before the count could reach past the lookahead depth and before
the stream ended), no buffered token at all is written to the sink. -/
theorem c7_fill_phase_cancel (input : List Char) (d : Nat)
    (append tty : Bool) (ts : List Token) (k : Nat)
    (h1 : k < d) (h2 : k ≤ ts.length) :
    tokenEmits (processStreamEvents input d append tty ts (some k)) = [] := by
  unfold processStreamEvents
  dsimp only
  rw [loopK_some]
  dsimp only
  simp only [Nat.sub_zero]
  rw [foldl_step_init]
  have hlen : (adjustTokens (trimInput input) (ts.take k)).length = k := by
    rw [adjustTokens_length, List.length_take]
    omega
  have hev := foldl_stepP_events (trimInput input) d append tty
    (adjustTokens (trimInput input) (ts.take k))
  have hstop : ¬ (d < (adjustTokens (trimInput input) (ts.take k)).length ∧
      append = false ∧ tty = true) := by
    rintro ⟨hlt, -⟩
    rw [hlen] at hlt
    omega
  have hev' : (List.foldl (stepP (trimInput input) d append tty) initState
      (adjustTokens (trimInput input) (ts.take k))).events = [] := by
    rw [hev, if_neg hstop, hlen]
    have : k - d = 0 := by omega
    simp [this]
  have hecho : tokenEmits
      (if append = true then [] else [Event.echo (trimInput input)]) = [] := by
    cases append <;> rfl
  by_cases hkl : k < ts.length
  · rw [if_pos (by simpa using hkl)]
    rw [tokenEmits_append, tokenEmits_append, hev', hecho]
    rfl
  · rw [if_neg (by simpa using hkl)]
    have hdrain : drainEmits (some k) ts.length (drainList
        (List.foldl (stepP (trimInput input) d append tty) initState
          (adjustTokens (trimInput input) (ts.take k)))) = [] := by
      unfold drainEmits
      have h0 : k - ts.length = 0 := by omega
      simp [h0]
    rw [hdrain]
    rw [tokenEmits_append, tokenEmits_append, tokenEmits_append, hev', hecho]
    rfl

/-- C7 witness: depth 3, kill flag observed at check 1 on a two-token
stream: nothing is emitted. -/
theorem c7_fill_phase_cancel_witness :
    tokenEmits (processStreamEvents [] 3 false false [['x'], ['y']]
      (some 1)) = [] :=
  c7_fill_phase_cancel [] 3 false false [['x'], ['y']] 1 (by omega) (by decide)

/-- C9: the initial trim of `processStream` removes both the trailing
newline and the non-newline character before it, so the text echoed to
the sink (the head event of every non-append run) lacks the last visible
character of the input. -/
theorem c9_trim_eats_last_char (s : List Char) (c : Char) (h : c ≠ '\n') :
    trimInput (s ++ [c, '\n']) = s ∧
    ∀ (d : Nat) (tty : Bool) (ts : List Token) (ka : Option Nat),
      (processStreamEvents (s ++ [c, '\n']) d false tty ts ka).head?
        = some (Event.echo s) := by
  have htrim : trimInput (s ++ [c, '\n']) = s := by
    unfold trimInput
    rw [List.reverse_append]
    simp [h]
  refine ⟨htrim, ?_⟩
  intro d tty ts ka
  unfold processStreamEvents
  dsimp only
  rw [htrim]
  split <;> simp

/-- C9 witness: the theorem applied to input `"ab\n"`: the echoed text
and trimmed prompt are just `"a"`. -/
theorem c9_trim_eats_last_char_witness :
    trimInput (("ab\n").data) = (("a").data) ∧
    (processStreamEvents (("ab\n").data) 1 false false [] none).head?
      = some (Event.echo (("a").data)) := by
  have h := c9_trim_eats_last_char (("a").data) 'b' (by decide)
  exact ⟨h.1, h.2 1 false [] none⟩

end LlmComplete
